import Mathlib

/-!
Verification development for the incremental-delivery execution core
(graphql-js defer/stream branch).

The Dispatcher is embedded from src/src/execution/dispatcher.js (the
current, hasNext-based version at the top of that file).  JavaScript
promises are abstracted by the value they eventually settle to; the
nondeterministic order in which the pending promises of a race settle is
made explicit as a schedule (a list of indices into the pending array).
The serial mutation executor and the stream-conflict validator are not
part of the sources (only their tests are); they are modelled from the
specification, as marked in their doc comments.
-/

namespace GraphQLJs

/-- Response-path segment: a string field name or a non-negative list index
(jsutils/Path.js). -/
inductive PathSeg where
  | key (s : String)
  | idx (n : Nat)
deriving DecidableEq, Repr

/-- Linked response path, a chain of (prev, key) pairs.  Path.root plays the
role of the undefined path at the response root (jsutils/Path.js). -/
inductive Path where
  | root
  | child (prev : Path) (seg : PathSeg)
deriving DecidableEq, Repr

/-- pathToArray from jsutils/Path.js: flatten the linked path, outermost
segment first. -/
def pathToArray : Path → List PathSeg
  | .root => []
  | .child prev seg => pathToArray prev ++ [seg]

/-- GraphQLError wire shape: message, locations, and an optional response
path (error/GraphQLError.js, as observed by the execution tests). -/
structure GraphQLError where
  message : String
  locations : List (Nat × Nat)
  path : Option (List PathSeg)
deriving DecidableEq, Repr

/-- A JavaScript promise, abstracted by the value it settles to. -/
structure JsPromise (α : Type) where
  settled : α
deriving DecidableEq, Repr

/-- A value that is either a promise or a plain (ready) value
(jsutils/PromiseOrValue.js). -/
inductive PromiseOrValue (α : Type) where
  | promise (p : JsPromise α)
  | value (v : α)
deriving DecidableEq, Repr

/-- isPromise from jsutils/isPromise.js: detect a promise-like value. -/
def isPromise {α : Type} : PromiseOrValue α → Bool
  | .promise _ => true
  | .value _ => false

namespace Dispatcher

/-- Dispatcher.getPromise: return a promise-like input unchanged, wrap any
other input with Promise.resolve (dispatcher.js lines 60-65). -/
def getPromise {α : Type} : PromiseOrValue α → JsPromise α
  | .promise p => p
  | .value v => ⟨v⟩

/-- The ExecutionPatchResult a pending entry of Dispatcher._patches settles
to: the data key is always assigned, the label key only when label is
non-null, the errors key only when the error list is non-empty
(dispatcher.js lines 78-92).  label = none models an absent label key and
errors = [] models an absent errors key. -/
structure PatchRecord (α : Type) where
  data : α
  path : List PathSeg
  label : Option String
  errors : List GraphQLError
deriving DecidableEq, Repr

/-- Build the settled patch value exactly as the then-callback inside
Dispatcher.add does: start from the data and flattened path, assign the
label key only if the label is non-null, assign the errors key only if the
error list is non-empty. -/
def mkPatchValue {α : Type} (label : Option String) (path : Path) (data : α)
    (errors : List GraphQLError) : PatchRecord α :=
  let base : PatchRecord α :=
    { data := data, path := pathToArray path, label := none, errors := [] }
  let withLabel : PatchRecord α :=
    if label.isSome then { base with label := label } else base
  if errors.length > 0 then { withLabel with errors := errors } else withLabel

/-- Dispatcher.add (dispatcher.js lines 71-95): normalize promiseOrData
with getPromise and push one pending entry that settles to the patch
record.  The dispatcher state is its _patches array, here represented by
the records the pending promises settle to. -/
def add {α : Type} (patches : List (PatchRecord α)) (label : Option String)
    (path : Path) (promiseOrData : PromiseOrValue α)
    (errors : List GraphQLError) : List (PatchRecord α) :=
  patches ++ [mkPatchValue label path (getPromise promiseOrData).settled errors]

/-- Dispatcher.hasPatches (dispatcher.js lines 67-69). -/
def hasPatches {α : Type} (patches : List (PatchRecord α)) : Bool :=
  patches.length ≠ 0

/-- The initial ExecutionResult handed to Dispatcher.get: data plus the
errors accumulated during immediate execution. -/
structure ExecutionResult (α : Type) where
  data : α
  errors : List GraphQLError
deriving DecidableEq, Repr

/-- A payload of the outgoing async sequence, in wire shape.  data = none
and path = none model absent keys: the initial payload spreads the initial
result (so its data key is present and its path key absent), a patch
payload spreads a patch record (data and path keys present). -/
structure Payload (α : Type) where
  data : Option α
  path : Option (List PathSeg)
  label : Option String
  errors : List GraphQLError
  hasNext : Bool
deriving DecidableEq, Repr

/-- The first payload: the spread of the initial result with hasNext set to
true unconditionally (dispatcher.js lines 122-130). -/
def initialPayload {α : Type} (r : ExecutionResult α) : Payload α :=
  { data := some r.data, path := none, label := none
    errors := r.errors, hasNext := true }

/-- A patch payload: the spread of a settled patch record with the hasNext
flag computed by the race (dispatcher.js lines 105-116). -/
def patchPayload {α : Type} (p : PatchRecord α) (h : Bool) : Payload α :=
  { data := some p.data, path := some p.path, label := p.label
    errors := p.errors, hasNext := h }

/-- State of the iterator returned by Dispatcher.get: the
hasReturnedInitialResult flag and the pending patches array (aliased with
the dispatcher's _patches). -/
structure IterState (α : Type) where
  hasReturnedInitialResult : Bool
  patches : List (PatchRecord α)
deriving DecidableEq, Repr

/-- Result of one next() call: either a settled { value, done: false }
payload, or the exhausted { value: undefined, done: true } result. -/
inductive StepResult (α : Type) where
  | yieldPayload (p : Payload α)
  | exhausted
deriving DecidableEq, Repr

/-- getNext (dispatcher.js lines 121-138) together with race (lines
101-119).  The choice argument selects which pending promise settles
first; the code removes exactly that promise (splice) and decorates its
value with hasNext := (promises.length !== 1), computed on the array as it
is when the race is set up, before the removal. -/
def getNext {α : Type} (initialResult : ExecutionResult α) (s : IterState α)
    (choice : Nat) : StepResult α × IterState α :=
  if s.hasReturnedInitialResult = false then
    (.yieldPayload (initialPayload initialResult),
     { s with hasReturnedInitialResult := true })
  else
    match s.patches with
    | [] => (.exhausted, s)
    | p :: ps =>
      (.yieldPayload (patchPayload ((p :: ps).getD (choice % (p :: ps).length) p)
          (decide ((p :: ps).length ≠ 1))),
       { s with patches := (p :: ps).eraseIdx (choice % (p :: ps).length) })

/-- The order in which the pending patches settle under a given schedule:
each schedule entry picks the index (mod the current length) of the
pending promise that wins the next race; that entry is then removed. -/
def emitOrder {α : Type} (patches : List (PatchRecord α)) (sched : List Nat) :
    List (PatchRecord α) :=
  match patches with
  | [] => []
  | p :: ps =>
    (p :: ps).getD (sched.headD 0 % (p :: ps).length) p ::
      emitOrder ((p :: ps).eraseIdx (sched.headD 0 % (p :: ps).length)) sched.tail
termination_by patches.length
decreasing_by
  have h : sched.headD 0 % (ps.length + 1) < ps.length + 1 :=
    Nat.mod_lt _ (Nat.succ_pos ps.length)
  simp only [List.length_eraseIdx, List.length_cons, if_pos h]
  omega

/-- The patch payloads produced by repeated next() calls after the initial
payload, under a given settlement schedule: each emitted patch is
decorated with hasNext := (length of the pending array at race time ≠ 1). -/
def emitAll {α : Type} (patches : List (PatchRecord α)) (sched : List Nat) :
    List (Payload α) :=
  match patches with
  | [] => []
  | p :: ps =>
    patchPayload ((p :: ps).getD (sched.headD 0 % (p :: ps).length) p)
        (decide ((p :: ps).length ≠ 1)) ::
      emitAll ((p :: ps).eraseIdx (sched.headD 0 % (p :: ps).length)) sched.tail
termination_by patches.length
decreasing_by
  have h : sched.headD 0 % (ps.length + 1) < ps.length + 1 :=
    Nat.mod_lt _ (Nat.succ_pos ps.length)
  simp only [List.length_eraseIdx, List.length_cons, if_pos h]
  omega

/-- The whole output sequence of the async iterable returned by
Dispatcher.get(initialResult) when the pending array holds the given
patches and the races settle according to the schedule. -/
def dispatcherOutput {α : Type} (r : ExecutionResult α)
    (patches : List (PatchRecord α)) (sched : List Nat) : List (Payload α) :=
  initialPayload r :: emitAll patches sched

/-- Drain the iterator by calling getNext repeatedly (consuming one
schedule entry per call) until it reports done, with a fuel bound. -/
def drain {α : Type} (r : ExecutionResult α) :
    Nat → IterState α → List Nat → List (Payload α)
  | 0, _, _ => []
  | fuel + 1, s, sched =>
    match getNext r s (sched.headD 0) with
    | (.exhausted, _) => []
    | (.yieldPayload p, s') => p :: drain r fuel s' sched.tail

/-- Forgetting the hasNext decoration of a payload (used to compare the
emitted payloads with the registered patch records). -/
def stripHasNext {α : Type} (pl : Payload α) : Payload α :=
  { pl with hasNext := true }

theorem emitOrder_nil {α : Type} (sched : List Nat) :
    emitOrder ([] : List (PatchRecord α)) sched = [] := by
  rw [emitOrder]

theorem emitAll_nil {α : Type} (sched : List Nat) :
    emitAll ([] : List (PatchRecord α)) sched = [] := by
  rw [emitAll]

/-- A list is a permutation of any chosen element consed onto the list with
that position removed. -/
theorem perm_get_cons_eraseIdx {β : Type} :
    ∀ (l : List β) (i : Fin l.length), l.Perm (l.get i :: l.eraseIdx i.val)
  | a :: l, ⟨0, _⟩ => by simp
  | a :: l, ⟨i + 1, h⟩ => by
    have ih := perm_get_cons_eraseIdx l ⟨i, by simpa using h⟩
    simp only [List.get_cons_succ, List.eraseIdx_cons_succ]
    exact (List.Perm.cons a ih).trans (List.Perm.swap _ _ _)

/-- The same, with defaulted indexing. -/
theorem perm_getD_cons_eraseIdx {β : Type} (l : List β) (d : β) (n : Nat)
    (h : n < l.length) : l.Perm (l.getD n d :: l.eraseIdx n) := by
  have hg : l.getD n d = l.get ⟨n, h⟩ := by
    simp [List.getD_eq_getElem?_getD, List.getElem?_eq_getElem h]
  rw [hg]
  exact perm_get_cons_eraseIdx l ⟨n, h⟩

/-- The settlement order is a permutation of the registration order. -/
theorem emitOrder_perm {α : Type} (ps : List (PatchRecord α)) (sched : List Nat) :
    (emitOrder ps sched).Perm ps := by
  induction ps, sched using emitOrder.induct with
  | case1 sched => simp [emitOrder]
  | case2 sched p ps ih =>
    rw [emitOrder]
    have hmod : sched.headD 0 % (p :: ps).length < (p :: ps).length :=
      Nat.mod_lt _ (by simp)
    exact (ih.cons _).trans (perm_getD_cons_eraseIdx (p :: ps) p _ hmod).symm

/-- emitAll is emitOrder decorated with hasNext flags. -/
theorem emitAll_map_strip {α : Type} (ps : List (PatchRecord α)) (sched : List Nat) :
    (emitAll ps sched).map stripHasNext
      = (emitOrder ps sched).map (fun pr => patchPayload pr true) := by
  induction ps, sched using emitAll.induct with
  | case1 sched => rw [emitAll, emitOrder]; rfl
  | case2 sched p ps ih =>
    rw [emitAll, emitOrder]
    simpa [stripHasNext, patchPayload] using ih

/-- One payload is emitted per pending patch. -/
theorem emitAll_length {α : Type} (ps : List (PatchRecord α)) (sched : List Nat) :
    (emitAll ps sched).length = ps.length := by
  induction ps, sched using emitAll.induct with
  | case1 sched => simp [emitAll]
  | case2 sched p ps ih =>
    rw [emitAll, List.length_cons, ih]
    have hmod : sched.headD 0 % (ps.length + 1) < ps.length + 1 :=
      Nat.mod_lt _ (Nat.succ_pos ps.length)
    simp only [List.length_eraseIdx, List.length_cons]
    rw [if_pos hmod]
    omega

/-- Every emitted patch payload carries a present data key and a present
path key (it is the spread of a settled patch record). -/
theorem emitAll_data_isSome {α : Type} (ps : List (PatchRecord α)) (sched : List Nat) :
    ∀ pl ∈ emitAll ps sched, pl.data.isSome = true ∧ pl.path.isSome = true := by
  induction ps, sched using emitAll.induct with
  | case1 sched => rw [emitAll]; intro pl hpl; simp at hpl
  | case2 sched p ps ih =>
    rw [emitAll]
    intro pl hpl
    rcases List.mem_cons.mp hpl with h | h
    · subst h; simp [patchPayload]
    · exact ih pl h

/-- hasNext of the payload at position j of the emitted patch sequence is
true except at the very last position. -/
theorem emitAll_getD_hasNext {α : Type} (dflt : Payload α) :
    ∀ (ps : List (PatchRecord α)) (sched : List Nat), ∀ j : Nat, j < ps.length →
      ((emitAll ps sched).getD j dflt).hasNext = decide (j + 1 ≠ ps.length) := by
  intro ps sched
  induction ps, sched using emitAll.induct with
  | case1 sched => intro j hj; simp at hj
  | case2 sched p ps ih =>
    intro j hj
    rw [emitAll]
    have hmod : sched.headD 0 % (p :: ps).length < (p :: ps).length :=
      Nat.mod_lt _ (by simp)
    have hmod' : sched.headD 0 % (ps.length + 1) < ps.length + 1 :=
      Nat.mod_lt _ (Nat.succ_pos ps.length)
    have herase : ((p :: ps).eraseIdx (sched.headD 0 % (p :: ps).length)).length
        = ps.length := by
      simp only [List.length_eraseIdx, List.length_cons]
      rw [if_pos hmod']
      omega
    match j with
    | 0 =>
      simp only [List.getD_cons_zero, patchPayload]
      rw [decide_eq_decide]
      simp only [List.length_cons]
      omega
    | j + 1 =>
      simp only [List.getD_cons_succ]
      have hj' : j < ((p :: ps).eraseIdx (sched.headD 0 % (p :: ps).length)).length := by
        rw [herase]
        simp only [List.length_cons] at hj
        omega
      rw [ih j hj', herase, decide_eq_decide]
      simp only [List.length_cons]
      omega

/-- When at least one patch is pending, the last element of the emitted
sequence is the spread of a settled patch record with hasNext false. -/
theorem emitAll_getLast {α : Type} :
    ∀ (ps : List (PatchRecord α)) (sched : List Nat), ps ≠ [] →
      ∃ pr : PatchRecord α,
        (emitAll ps sched).getLast? = some (patchPayload pr false) := by
  intro ps sched
  induction ps, sched using emitAll.induct with
  | case1 sched => intro h; exact absurd rfl h
  | case2 sched p ps ih =>
    intro _
    rw [emitAll]
    have hmod : sched.headD 0 % (p :: ps).length < (p :: ps).length :=
      Nat.mod_lt _ (by simp)
    have hmod' : sched.headD 0 % (ps.length + 1) < ps.length + 1 :=
      Nat.mod_lt _ (Nat.succ_pos ps.length)
    have herase : ((p :: ps).eraseIdx (sched.headD 0 % (p :: ps).length)).length
        = ps.length := by
      simp only [List.length_eraseIdx, List.length_cons]
      rw [if_pos hmod']
      omega
    cases hrest : emitAll ((p :: ps).eraseIdx (sched.headD 0 % (p :: ps).length))
        sched.tail with
    | nil =>
      have h0 : ps.length = 0 := by
        have hl := emitAll_length
          ((p :: ps).eraseIdx (sched.headD 0 % (p :: ps).length)) sched.tail
        rw [hrest, herase] at hl
        simpa using hl.symm
      refine ⟨(p :: ps).getD (sched.headD 0 % (p :: ps).length) p, ?_⟩
      have hflag : decide ((p :: ps).length ≠ 1) = false := by
        rw [decide_eq_false_iff_not]
        simp [List.length_cons, h0]
      rw [hflag]
      simp
    | cons x xs =>
      have hne' : (p :: ps).eraseIdx (sched.headD 0 % (p :: ps).length) ≠ [] := by
        intro h
        rw [h, emitAll_nil] at hrest
        cases hrest
      obtain ⟨pr, hpr⟩ := ih hne'
      rw [hrest] at hpr
      refine ⟨pr, ?_⟩
      rw [List.getLast?_cons_cons]
      exact hpr

/-- Any permutation of the pending array is realized by some settlement
schedule: settlement order is unconstrained. -/
theorem emitOrder_realizes {α : Type} [DecidableEq α] :
    ∀ (q ps : List (PatchRecord α)), ps.Perm q → ∃ sched, emitOrder ps sched = q := by
  intro q
  induction q with
  | nil =>
    intro ps h
    refine ⟨[], ?_⟩
    rw [h.eq_nil]
    exact emitOrder_nil []
  | cons r q ih =>
    intro ps h
    have hr : r ∈ ps := h.mem_iff.mpr (List.mem_cons_self r q)
    have hidx : List.indexOf r ps < ps.length := List.indexOf_lt_length.mpr hr
    have hq : (ps.erase r).Perm q := by
      have h1 : ps.Perm (r :: ps.erase r) := List.perm_cons_erase hr
      exact (h1.symm.trans h).cons_inv
    obtain ⟨sched', hs⟩ := ih (ps.erase r) hq
    refine ⟨List.indexOf r ps :: sched', ?_⟩
    cases ps with
    | nil => simp at hidx
    | cons p ps' =>
      rw [emitOrder]
      simp only [List.headD_cons, List.tail_cons]
      rw [Nat.mod_eq_of_lt hidx]
      congr 1
      · rw [List.getD_eq_getElem?_getD, List.getElem?_eq_getElem hidx]
        simp [List.getElem_indexOf hidx]
      · rw [List.eraseIdx_indexOf_eq_erase]
        exact hs

/-- The first next() call returns the spread initial result with hasNext
true, regardless of the pending array (dispatcher.js lines 122-130). -/
theorem getNext_initial {α : Type} (r : ExecutionResult α)
    (ps : List (PatchRecord α)) (c : Nat) :
    getNext r ⟨false, ps⟩ c = (.yieldPayload (initialPayload r), ⟨true, ps⟩) := rfl

/-- After the initial result, an empty pending array yields the done
result and the state is unchanged (dispatcher.js lines 131-132). -/
theorem getNext_done {α : Type} (r : ExecutionResult α) (c : Nat) :
    getNext r ⟨true, ([] : List (PatchRecord α))⟩ c = (.exhausted, ⟨true, []⟩) := rfl

/-- After the initial result, a non-empty pending array races: the settled
entry is emitted with the race's hasNext flag and spliced out
(dispatcher.js lines 134-137). -/
theorem getNext_race_step {α : Type} (r : ExecutionResult α) (c : Nat)
    (q : PatchRecord α) (qs : List (PatchRecord α)) :
    getNext r ⟨true, q :: qs⟩ c
      = (.yieldPayload (patchPayload ((q :: qs).getD (c % (q :: qs).length) q)
          (decide ((q :: qs).length ≠ 1))),
         ⟨true, (q :: qs).eraseIdx (c % (q :: qs).length)⟩) := rfl

/-- Iterating getNext from the delivered-initial state drains exactly the
emitAll sequence. -/
theorem drain_delivered {α : Type} (r : ExecutionResult α) :
    ∀ (fuel : Nat) (ps : List (PatchRecord α)) (sched : List Nat),
      ps.length ≤ fuel →
      drain r fuel ⟨true, ps⟩ sched = emitAll ps sched := by
  intro fuel
  induction fuel with
  | zero =>
    intro ps sched h
    have : ps = [] := List.length_eq_zero.mp (Nat.le_zero.mp h)
    subst this
    rw [emitAll_nil]
    rfl
  | succ fuel ih =>
    intro ps sched h
    cases ps with
    | nil =>
      rw [emitAll_nil]
      simp [drain, getNext_done]
    | cons p ps' =>
      rw [emitAll]
      have hmod : sched.headD 0 % (ps'.length + 1) < ps'.length + 1 :=
        Nat.mod_lt _ (Nat.succ_pos ps'.length)
      have herase : ((p :: ps').eraseIdx (sched.headD 0 % (p :: ps').length)).length
          = ps'.length := by
        simp only [List.length_eraseIdx, List.length_cons]
        rw [if_pos hmod]
        omega
      have hdrain : drain r (fuel + 1) ⟨true, p :: ps'⟩ sched
          = patchPayload ((p :: ps').getD (sched.headD 0 % (p :: ps').length) p)
              (decide ((p :: ps').length ≠ 1)) ::
            drain r fuel
              ⟨true, (p :: ps').eraseIdx (sched.headD 0 % (p :: ps').length)⟩
              sched.tail := rfl
      rw [hdrain]
      congr 1
      apply ih
      rw [herase]
      simpa using h

/-- Iterating getNext from a fresh iterator state yields the full output
sequence: the initial payload (the fresh call ignores its settlement
choice) followed by the emitted patches. -/
theorem drain_eq_dispatcherOutput {α : Type} (r : ExecutionResult α)
    (ps : List (PatchRecord α)) (sched : List Nat) (fuel : Nat) (c : Nat)
    (h : ps.length ≤ fuel) :
    drain r (fuel + 1) ⟨false, ps⟩ (c :: sched) = dispatcherOutput r ps sched := by
  rw [drain, getNext_initial]
  show initialPayload r :: drain r fuel ⟨true, ps⟩ sched = _
  rw [drain_delivered r fuel ps sched h]
  rfl

/-- The patch value built by add keeps the data, flattens the path, and
stores exactly the given label and errors (absent keys modelled by none
and by the empty list). -/
theorem mkPatchValue_fields {α : Type} (label : Option String) (path : Path)
    (data : α) (errors : List GraphQLError) :
    (mkPatchValue label path data errors).data = data
    ∧ (mkPatchValue label path data errors).path = pathToArray path
    ∧ (mkPatchValue label path data errors).label = label
    ∧ (mkPatchValue label path data errors).errors = errors := by
  cases label <;> cases errors <;> simp [mkPatchValue]

/-- Sample values used by the concrete witnesses below. -/
def sampleInitial : ExecutionResult Nat :=
  { data := 1, errors := [] }

def samplePatch : PatchRecord Nat :=
  { data := 7, path := [PathSeg.key "hero", PathSeg.idx 2]
    label := some "L", errors := [] }

def samplePatchB : PatchRecord Nat :=
  { data := 8, path := [PathSeg.key "hero", PathSeg.idx 3]
    label := some "L", errors := [] }

def samplePayloadDflt : Payload Nat :=
  { data := none, path := none, label := none, errors := [], hasNext := false }

/-- C7: every call Dispatcher.add(label, path, promiseOrData, errors),
whether promiseOrData is a ready value or a promise, registers exactly one
pending entry, appended to the pending array; it settles to a patch record
whose data is the settled value, whose path is the flattened form of the
linked path, whose label key is present (with the given label) iff label
is non-null, and whose errors key is present (with the given list) iff the
error list is non-empty. -/
theorem claim_C7_add_registers_one_entry {α : Type}
    (patches : List (PatchRecord α)) (label : Option String) (path : Path)
    (promiseOrData : PromiseOrValue α) (errors : List GraphQLError) :
    ∃ pr : PatchRecord α,
      add patches label path promiseOrData errors = patches ++ [pr]
      ∧ (add patches label path promiseOrData errors).length = patches.length + 1
      ∧ (add patches label path promiseOrData errors).take patches.length = patches
      ∧ pr.data = (getPromise promiseOrData).settled
      ∧ pr.path = pathToArray path
      ∧ pr.label = label
      ∧ pr.label.isSome = label.isSome
      ∧ pr.errors = errors
      ∧ (pr.errors = [] ↔ errors = []) := by
  obtain ⟨h1, h2, h3, h4⟩ :=
    mkPatchValue_fields label path (getPromise promiseOrData).settled errors
  refine ⟨mkPatchValue label path (getPromise promiseOrData).settled errors,
    rfl, by simp [add], ?_, h1, h2, h3, by rw [h3], h4, by rw [h4]⟩
  simp [add, List.take_left]

/-- C9: the first next() call on the sequence returned by
Dispatcher.get(initialResult) always yields the spread of the initial
result with hasNext set to true unconditionally, even when the pending
array is empty; in that case the following call returns the done result
and the whole output is the single initial payload, so no hasNext-false
payload is ever emitted. -/
theorem claim_C9_first_payload_unconditional {α : Type} (r : ExecutionResult α) :
    (∀ (ps : List (PatchRecord α)) (c : Nat),
        getNext r ⟨false, ps⟩ c = (.yieldPayload (initialPayload r), ⟨true, ps⟩))
    ∧ (initialPayload r).hasNext = true
    ∧ (initialPayload r).data = some r.data
    ∧ (∀ c : Nat,
        getNext r ⟨true, ([] : List (PatchRecord α))⟩ c = (.exhausted, ⟨true, []⟩))
    ∧ (∀ sched : List Nat,
        dispatcherOutput r ([] : List (PatchRecord α)) sched = [initialPayload r])
    ∧ (∀ sched : List Nat,
        (dispatcherOutput r ([] : List (PatchRecord α)) sched).all
          (fun pl => pl.hasNext) = true) := by
  refine ⟨fun ps c => rfl, rfl, rfl, fun c => rfl, fun sched => ?_, fun sched => ?_⟩
  · rw [dispatcherOutput, emitAll_nil]
  · rw [dispatcherOutput, emitAll_nil]
    simp [initialPayload]

/-- C10: Dispatcher.getPromise is the identity on promise inputs and wraps
any other input in a resolved promise; it is idempotent, the settled value
of getPromise v is v for every non-promise v, and consequently add treats
ready values and promises with the same settled value identically. -/
theorem claim_C10_getPromise_uniform {α : Type} :
    (∀ p : JsPromise α, getPromise (.promise p) = p)
    ∧ (∀ v : α, getPromise (.value v) = JsPromise.mk v)
    ∧ (∀ v : α, isPromise (.value v : PromiseOrValue α) = false)
    ∧ (∀ p : JsPromise α, isPromise (.promise p : PromiseOrValue α) = true)
    ∧ (∀ v : PromiseOrValue α, getPromise (.promise (getPromise v)) = getPromise v)
    ∧ (∀ v : α, (getPromise (.value v)).settled = v)
    ∧ (∀ (patches : List (PatchRecord α)) (label : Option String) (path : Path)
          (d : α) (errors : List GraphQLError),
        add patches label path (.promise ⟨d⟩) errors
          = add patches label path (.value d) errors) := by
  exact ⟨fun p => rfl, fun v => rfl, fun v => rfl, fun p => rfl,
    fun v => by cases v <;> rfl, fun v => rfl, fun a b c d e => rfl⟩

/-- C1 (amended): when payloads are pending as immediate execution ends,
the output sequence's first element is the initial result extended with
hasNext true, hasNext is true on every element except the last, and the
last element is the final settling patch itself - its data and path keys
present, hasNext false.  No distinct data-less terminator payload is
emitted (the claim's terminator of shape only-hasNext-false does not
occur; see the counterexample). -/
theorem claim_C1_output_shape {α : Type} (r : ExecutionResult α)
    (ps : List (PatchRecord α)) (sched : List Nat) (dflt : Payload α)
    (hne : ps ≠ []) :
    (dispatcherOutput r ps sched).length = ps.length + 1
    ∧ (dispatcherOutput r ps sched).headD dflt = initialPayload r
    ∧ (initialPayload r).hasNext = true
    ∧ (∀ j : Nat, j < ps.length + 1 →
        ((dispatcherOutput r ps sched).getD j dflt).hasNext = decide (j ≠ ps.length))
    ∧ (∀ pl ∈ emitAll ps sched, pl.data.isSome = true ∧ pl.path.isSome = true)
    ∧ ∃ pr : PatchRecord α,
        (dispatcherOutput r ps sched).getLast? = some (patchPayload pr false) := by
  refine ⟨by simp [dispatcherOutput, emitAll_length], rfl, rfl, ?_,
    emitAll_data_isSome ps sched, ?_⟩
  · intro j hj
    match j with
    | 0 =>
      rw [dispatcherOutput]
      simp only [List.getD_cons_zero, initialPayload]
      have : ps.length ≠ 0 := fun h0 => hne (List.length_eq_zero.mp h0)
      simp [this.symm]
    | j + 1 =>
      rw [dispatcherOutput]
      simp only [List.getD_cons_succ]
      rw [emitAll_getD_hasNext dflt ps sched j (by omega)]
  · obtain ⟨pr, hpr⟩ := emitAll_getLast ps sched hne
    refine ⟨pr, ?_⟩
    rw [dispatcherOutput]
    cases hemit : emitAll ps sched with
    | nil =>
      have := emitAll_length ps sched
      rw [hemit] at this
      exact absurd (List.length_eq_zero.mp this.symm) hne
    | cons x xs =>
      rw [hemit] at hpr
      rw [List.getLast?_cons_cons]
      exact hpr

/-- C1 witness: a dispatcher with one pending patch, evaluated. -/
theorem claim_C1_output_shape_witness :
    (([samplePatch] : List (PatchRecord Nat)) ≠ [])
    ∧ (dispatcherOutput sampleInitial [samplePatch] []).length = 1 + 1 :=
  ⟨by decide,
   (claim_C1_output_shape sampleInitial [samplePatch] [] samplePayloadDflt
     (by decide)).1⟩

/-- C1 counterexample: with exactly one pending patch the output sequence
is the initial payload followed by the settled patch itself; the last
element carries the patch's data (data key present) and hasNext false, so
it is not a data-less terminator payload, and no element of the output has
an absent data key. -/
theorem claim_C1_no_dataless_terminator_counterexample :
    dispatcherOutput sampleInitial [samplePatch] []
      = [initialPayload sampleInitial, patchPayload samplePatch false]
    ∧ (dispatcherOutput sampleInitial [samplePatch] []).getLast?
        = some (patchPayload samplePatch false)
    ∧ (patchPayload samplePatch false).data = some 7
    ∧ (patchPayload samplePatch false).hasNext = false
    ∧ (dispatcherOutput sampleInitial [samplePatch] []).all
        (fun pl => pl.data.isSome) = true := by
  refine ⟨?_, ?_, rfl, rfl, ?_⟩ <;>
    simp [dispatcherOutput, emitAll, emitAll_nil, initialPayload, patchPayload,
      samplePatch, sampleInitial]

/-- C2: each next() call after the initial payload yields the settled
value of one pending promise, decorated with the race's hasNext flag, and
removes exactly that promise; the emitted patch sequence is the settlement
order, which is a permutation of the registration order, and every
permutation is realized by some settlement schedule, so the only ordering
invariants are that the initial payload is first and that the element
carrying hasNext false is the last one. -/
theorem claim_C2_settlement_order {α : Type} [DecidableEq α]
    (r : ExecutionResult α) (ps : List (PatchRecord α)) (sched : List Nat) :
    (∀ (c : Nat) (q : PatchRecord α) (qs : List (PatchRecord α)),
        getNext r ⟨true, q :: qs⟩ c
          = (.yieldPayload (patchPayload ((q :: qs).getD (c % (q :: qs).length) q)
              (decide ((q :: qs).length ≠ 1))),
             ⟨true, (q :: qs).eraseIdx (c % (q :: qs).length)⟩))
    ∧ (dispatcherOutput r ps sched).headD (initialPayload r) = initialPayload r
    ∧ ((dispatcherOutput r ps sched).tail.map stripHasNext
        = (emitOrder ps sched).map (fun pr => patchPayload pr true))
    ∧ (emitOrder ps sched).Perm ps
    ∧ (∀ q : List (PatchRecord α), ps.Perm q → ∃ sched2, emitOrder ps sched2 = q)
    ∧ (ps ≠ [] → ∃ pr : PatchRecord α,
        (dispatcherOutput r ps sched).getLast? = some (patchPayload pr false)) := by
  refine ⟨fun c q qs => getNext_race_step r c q qs, rfl,
    emitAll_map_strip ps sched, emitOrder_perm ps sched,
    fun q hq => emitOrder_realizes q ps hq, fun hne => ?_⟩
  obtain ⟨pr, hpr⟩ := emitAll_getLast ps sched hne
  refine ⟨pr, ?_⟩
  rw [dispatcherOutput]
  cases hemit : emitAll ps sched with
  | nil =>
    have := emitAll_length ps sched
    rw [hemit] at this
    exact absurd (List.length_eq_zero.mp this.symm) hne
  | cons x xs =>
    rw [hemit] at hpr
    rw [List.getLast?_cons_cons]
    exact hpr

/-- C2 witness: both settlement orders of two pending patches are realized
by concrete schedules. -/
theorem claim_C2_settlement_order_witness :
    ([samplePatch, samplePatchB] : List (PatchRecord Nat)).Perm
      [samplePatchB, samplePatch]
    ∧ ∃ sched2, emitOrder [samplePatch, samplePatchB] sched2
        = [samplePatchB, samplePatch] :=
  ⟨by decide,
   (claim_C2_settlement_order sampleInitial [samplePatch, samplePatchB]
       []).2.2.2.2.1 [samplePatchB, samplePatch] (by decide)⟩

/-- C8: every payload registered via add is emitted exactly once: add only
appends (one entry per call), the emitted sequence delivers each pending
record with exactly its registration multiplicity, and once the pending
array is empty every further next() call returns the done result with the
state unchanged, so nothing is dropped or delivered twice. -/
theorem claim_C8_each_patch_emitted_once {α : Type} [DecidableEq α]
    (r : ExecutionResult α) (ps : List (PatchRecord α)) (sched : List Nat)
    (pr : PatchRecord α) :
    ((emitOrder ps sched).count pr = ps.count pr)
    ∧ ((emitAll ps sched).length = ps.length)
    ∧ ((dispatcherOutput r ps sched).tail.map stripHasNext
        = (emitOrder ps sched).map (fun x => patchPayload x true))
    ∧ (∀ (patches : List (PatchRecord α)) (label : Option String) (path : Path)
          (pod : PromiseOrValue α) (errs : List GraphQLError),
        (add patches label path pod errs).take patches.length = patches
        ∧ (add patches label path pod errs).length = patches.length + 1)
    ∧ (∀ c : Nat,
        getNext r ⟨true, ([] : List (PatchRecord α))⟩ c = (.exhausted, ⟨true, []⟩)) := by
  refine ⟨(emitOrder_perm ps sched).count_eq pr, emitAll_length ps sched,
    emitAll_map_strip ps sched, fun patches label path pod errs =>
      ⟨by simp [add, List.take_left], by simp [add]⟩,
    fun c => rfl⟩

end Dispatcher

namespace StreamValidation

/-- Modelled from the spec: the stream/defer conflict validator itself
(part of execute.js) is not under src, only its tests are.  These are the
coerced values of a @stream directive on a selection after if-filtering
(spec 4.1, 4.3): its label and initialCount. -/
structure StreamValues where
  label : Option String
  initialCount : Nat
deriving DecidableEq, Repr

/-- Modelled from the spec: one field selection contributing to a
response-key group: the underlying field name, the resolved stream
directive (none when the selection carries no effective @stream), and the
selection's source location. -/
structure FieldSel where
  fieldName : String
  stream : Option StreamValues
  loc : Nat × Nat
deriving DecidableEq, Repr

/-- Modelled from the spec: a group of selections sharing one response
key. -/
structure FieldGroup where
  responseKey : String
  sels : List FieldSel
deriving DecidableEq, Repr

/-- Modelled from the spec (4.3): a group conflicts iff two of its
selections carry different stream directives - differing label or
initialCount, or an effective @stream on some selections but not all. -/
def groupConflicts (sels : List FieldSel) : Bool :=
  match sels with
  | [] => false
  | s :: rest => rest.any (fun t => t.stream ≠ s.stream)

/-- Modelled from the spec (4.3): the conflict error message. -/
def conflictMessage (name : String) : String :=
  "Fields \"" ++ name ++
    "\" conflict because they have differing stream directives. Use different aliases on the fields to fetch both if this was intentional."

/-- Modelled from the spec (4.3): validating one group produces an error
with the conflict message for the underlying field name and the locations
of every selection of the group, and no response path. -/
def validateGroup (g : FieldGroup) : Option GraphQLError :=
  match g.sels with
  | [] => none
  | s :: rest =>
    if rest.any (fun t => t.stream ≠ s.stream) then
      some { message := conflictMessage s.fieldName
             locations := (s :: rest).map FieldSel.loc
             path := none }
    else none

/-- Modelled from the spec (4.3): validation of all groups of a request. -/
def validateRequest (groups : List FieldGroup) : List GraphQLError :=
  groups.filterMap validateGroup

/-- Result of the executor entry point: data key (absent on pre-execution
failure) and errors. -/
structure RequestResult (α : Type) where
  data : Option α
  errors : List GraphQLError
deriving DecidableEq, Repr

/-- Modelled from the spec (4.3, 4.6 step 1): a stream-directive conflict
is fatal for the entire request - the executor returns the errors with no
data key; otherwise execution proceeds and produces data. -/
def executeRequest {α : Type} (groups : List FieldGroup) (immediate : α) :
    RequestResult α :=
  match validateRequest groups with
  | [] => { data := some immediate, errors := [] }
  | errs => { data := none, errors := errs }

theorem validateGroup_conflict (g : FieldGroup) (s : FieldSel)
    (rest : List FieldSel) (hg : g.sels = s :: rest)
    (hconf : rest.any (fun t => t.stream ≠ s.stream) = true) :
    validateGroup g
      = some { message := conflictMessage s.fieldName
               locations := (s :: rest).map FieldSel.loc
               path := none } := by
  rw [validateGroup, hg]
  simp only [List.any_eq_true, decide_eq_true_eq] at hconf
  simp [hconf]

/-- C3: for every request in which two or more selections sharing a
response key carry mutually incompatible stream directives (differing
label or initialCount, or an effective @stream on some selections but not
all) and no other group conflicts, validation produces exactly one error
whose message is the conflict message for the field name with the
locations of every conflicting selection, and the executor returns the
errors with no data key. -/
theorem claim_C3_conflicting_stream_fatal {α : Type} (immediate : α)
    (pre post : List FieldGroup) (g : FieldGroup) (s : FieldSel)
    (rest : List FieldSel) (hg : g.sels = s :: rest)
    (hconf : rest.any (fun t => t.stream ≠ s.stream) = true)
    (hpre : ∀ g2 ∈ pre, validateGroup g2 = none)
    (hpost : ∀ g2 ∈ post, validateGroup g2 = none) :
    validateRequest (pre ++ g :: post)
      = [{ message := conflictMessage s.fieldName
           locations := (s :: rest).map FieldSel.loc
           path := none }]
    ∧ executeRequest (pre ++ g :: post) immediate
        = { data := none
            errors := [{ message := conflictMessage s.fieldName
                         locations := (s :: rest).map FieldSel.loc
                         path := none }] } := by
  have h1 : List.filterMap validateGroup pre = [] :=
    List.filterMap_eq_nil_iff.mpr hpre
  have h2 : List.filterMap validateGroup post = [] :=
    List.filterMap_eq_nil_iff.mpr hpost
  have hv : validateRequest (pre ++ g :: post)
      = [{ message := conflictMessage s.fieldName
           locations := (s :: rest).map FieldSel.loc
           path := none }] := by
    rw [validateRequest, List.filterMap_append, h1]
    simp [List.filterMap_cons, validateGroup_conflict g s rest hg hconf, h2]
  exact ⟨hv, by simp [executeRequest, hv]⟩

/-- Sample conflict matching the differing-initialCount test. -/
def sampleStreamSelA : FieldSel :=
  { fieldName := "friends", stream := some ⟨some "sameLabel", 3⟩, loc := (4, 13) }

def sampleStreamSelB : FieldSel :=
  { fieldName := "friends", stream := some ⟨some "sameLabel", 1⟩, loc := (11, 11) }

def sampleConflictGroup : FieldGroup :=
  { responseKey := "friends", sels := [sampleStreamSelA, sampleStreamSelB] }

/-- C3 witness: the concrete conflict of the differing-initialCount test,
with the exact message text of the tests. -/
theorem claim_C3_conflicting_stream_fatal_witness :
    conflictMessage "friends"
      = "Fields \"friends\" conflict because they have differing stream directives. Use different aliases on the fields to fetch both if this was intentional."
    ∧ executeRequest [sampleConflictGroup] (0 : Nat)
        = { data := none
            errors := [{ message := conflictMessage "friends"
                         locations := [(4, 13), (11, 11)]
                         path := none }] } :=
  ⟨rfl,
   (claim_C3_conflicting_stream_fatal (0 : Nat) [] [] sampleConflictGroup
     sampleStreamSelA [sampleStreamSelB] rfl (by decide)
     (by simp) (by simp)).2⟩

end StreamValidation

namespace MutationExec

/-- Modelled from the spec: the serial mutation executor
(executeFieldsSerially in execute.js) is not under src, only its tests
are.  These are the mutation resolvers of the mutations-test schema,
acting on the shared NumberHolder counter: a synchronous mutation, a
promise-returning mutation, a synchronously throwing resolver and a
rejecting-promise resolver. -/
inductive MutResolver where
  | immediatelyChangeTheNumber (newNumber : Int)
  | promiseToChangeTheNumber (newNumber : Int)
  | failToChangeTheNumber
  | promiseAndFailToChangeTheNumber
deriving DecidableEq, Repr

/-- A changeTheNumber resolver of either flavour: sync or promise. -/
def changeNumber (sync : Bool) (newNumber : Int) : MutResolver :=
  if sync then .immediatelyChangeTheNumber newNumber
  else .promiseToChangeTheNumber newNumber

/-- One top-level mutation field: its response key (the alias), its source
location and its resolver. -/
structure MutField where
  key : String
  loc : Nat × Nat
  resolver : MutResolver
deriving DecidableEq, Repr

/-- Modelled from the spec (4.4, 5): running one mutation field against
the shared counter: a changeTheNumber resolver (sync or promise alike,
since the serial discipline settles it fully) sets the counter to
newNumber and its theNumber sub-selection reads it back; a failing
resolver leaves the counter unchanged, yields null, and contributes one
field error with the message Cannot change the number, the field's
location and the response-key path. -/
def runField (counter : Int) (f : MutField) :
    Int × Option Int × List GraphQLError :=
  match f.resolver with
  | .immediatelyChangeTheNumber n => (n, some n, [])
  | .promiseToChangeTheNumber n => (n, some n, [])
  | .failToChangeTheNumber =>
      (counter, none,
       [{ message := "Cannot change the number", locations := [f.loc]
          path := some [PathSeg.key f.key] }])
  | .promiseAndFailToChangeTheNumber =>
      (counter, none,
       [{ message := "Cannot change the number", locations := [f.loc]
          path := some [PathSeg.key f.key] }])

/-- Modelled from the spec (4.6 Mutation, 5 Serial mutations):
execute the top-level mutation fields serially in declaration order; each
field - sync or promise - is fully settled (its value completed or its
error recorded) before the next field starts, and a failing field does not
abort the loop. -/
def executeFieldsSerially (counter : Int) :
    List MutField → Int × List (String × Option Int) × List GraphQLError
  | [] => (counter, [], [])
  | f :: fs =>
    let step := runField counter f
    let rest := executeFieldsSerially step.1 fs
    (rest.1, (f.key, step.2.1) :: rest.2.1, step.2.2 ++ rest.2.2)

/-- C4: for every mutation whose top-level fields carry no defer, the
fields execute serially in declaration order with each field fully settled
before the next begins: for the shared-counter schema, any interleaving of
sync and promise changeTheNumber resolvers with newNumber arguments 1..5
under aliases first..fifth yields theNumber values 1,2,3,4,5 and no
errors; in general the data keys appear in declaration order. -/
theorem claim_C4_mutations_run_serially (c0 : Int) (b1 b2 b3 b4 b5 : Bool) :
    executeFieldsSerially c0
      [{ key := "first", loc := (3, 9), resolver := changeNumber b1 1 },
       { key := "second", loc := (6, 9), resolver := changeNumber b2 2 },
       { key := "third", loc := (9, 9), resolver := changeNumber b3 3 },
       { key := "fourth", loc := (12, 9), resolver := changeNumber b4 4 },
       { key := "fifth", loc := (15, 9), resolver := changeNumber b5 5 }]
      = (5, [("first", some 1), ("second", some 2), ("third", some 3),
             ("fourth", some 4), ("fifth", some 5)], [])
    ∧ (∀ (c : Int) (fs : List MutField),
        ((executeFieldsSerially c fs).2.1).map Prod.fst = fs.map MutField.key) := by
  constructor
  · cases b1 <;> cases b2 <;> cases b3 <;> cases b4 <;> cases b5 <;> rfl
  · intro c fs
    induction fs generalizing c with
    | nil => rfl
    | cons f fs ih => simp [executeFieldsSerially, ih]

/-- C6: failing resolvers do not abort the serial loop: with alias third
throwing synchronously and sixth rejecting, data.third and data.sixth are
null, every other alias succeeds with its number, and errors holds exactly
two entries with message Cannot change the number and response-key paths
third and sixth; in general every field contributes an entry to data. -/
theorem claim_C6_failed_mutation_does_not_abort :
    executeFieldsSerially 6
      [{ key := "first", loc := (3, 9), resolver := .immediatelyChangeTheNumber 1 },
       { key := "second", loc := (6, 9), resolver := .promiseToChangeTheNumber 2 },
       { key := "third", loc := (9, 9), resolver := .failToChangeTheNumber },
       { key := "fourth", loc := (12, 9), resolver := .promiseToChangeTheNumber 4 },
       { key := "fifth", loc := (15, 9), resolver := .immediatelyChangeTheNumber 5 },
       { key := "sixth", loc := (18, 9), resolver := .promiseAndFailToChangeTheNumber }]
      = (5,
         [("first", some 1), ("second", some 2), ("third", none),
          ("fourth", some 4), ("fifth", some 5), ("sixth", none)],
         [{ message := "Cannot change the number", locations := [(9, 9)]
            path := some [PathSeg.key "third"] },
          { message := "Cannot change the number", locations := [(18, 9)]
            path := some [PathSeg.key "sixth"] }])
    ∧ (∀ (c : Int) (fs : List MutField),
        ((executeFieldsSerially c fs).2.1).length = fs.length) := by
  constructor
  · rfl
  · intro c fs
    induction fs generalizing c with
    | nil => rfl
    | cons f fs ih => simp [executeFieldsSerially, ih]

/-- A top-level mutation selection: a plain field, or a fragment carrying
an effective @defer with its label. -/
inductive MutSelection where
  | field (f : MutField)
  | deferredFragment (label : String) (sels : List MutField)
deriving DecidableEq, Repr

/-- A patch registered with the dispatcher by a deferred top-level
mutation fragment. -/
structure MutPatch where
  label : String
  path : List PathSeg
  data : List (String × Option Int)
  errors : List GraphQLError
deriving DecidableEq, Repr

/-- Modelled from the spec (5 Serial mutations) and the mutation tests:
the serial pass over the top-level selection set executes plain fields in
declaration order and removes deferred fragments from the pass, collecting
them in registration order for the dispatcher. -/
def serialPass (counter : Int) :
    List MutSelection →
      Int × List (String × Option Int) × List GraphQLError
        × List (String × List MutField)
  | [] => (counter, [], [], [])
  | .field f :: restSel =>
    let step := runField counter f
    let rest := serialPass step.1 restSel
    (rest.1, (f.key, step.2.1) :: rest.2.1, step.2.2 ++ rest.2.2.1, rest.2.2.2)
  | .deferredFragment lbl dsels :: restSel =>
    let rest := serialPass counter restSel
    (rest.1, rest.2.1, rest.2.2.1, (lbl, dsels) :: rest.2.2.2)

/-- Modelled from the spec (4.7, 5): the registered deferred thunks run
against the state the serial pass left behind, each producing one patch
with its defer label and the fragment's data. -/
def runDeferred (counter : Int) :
    List (String × List MutField) → Int × List MutPatch
  | [] => (counter, [])
  | (lbl, dsels) :: rest =>
    let step := executeFieldsSerially counter dsels
    let restRun := runDeferred step.1 rest
    (restRun.1, { label := lbl, path := [], data := step.2.1
                  errors := step.2.2 } :: restRun.2)

/-- Modelled from the spec (4.6, 5): executing a mutation operation is the
serial pass followed by the deferred thunks. -/
def executeMutation (counter : Int) (sels : List MutSelection) :
    Int × List (String × Option Int) × List GraphQLError × List MutPatch :=
  let pass := serialPass counter sels
  let deferredRun := runDeferred pass.1 pass.2.2.2
  (deferredRun.1, pass.2.1, pass.2.2.1, deferredRun.2)

/-- The mutation document of the test Mutation with defer is not executed
serially: a deferred fragment mutating to 1 via a promise, then an
immediate mutation to 2. -/
def mutationDeferDoc : List MutSelection :=
  [.deferredFragment "defer-label"
     [{ key := "first", loc := (10, 9), resolver := .promiseToChangeTheNumber 1 }],
   .field { key := "second", loc := (4, 9), resolver := .immediatelyChangeTheNumber 2 }]

/-- C5 counterexample: on the document of the mutation-defer test, the
deferred top-level fragment is NOT executed inline: the serial pass data
holds only the second alias, and one patch carrying the deferred
fragment's data is registered - contradicting the claim that top-level
defer in a mutation is treated as absent with no patch registered. -/
theorem claim_C5_topLevel_defer_ignored_counterexample :
    executeMutation 6 mutationDeferDoc
      = (1, [("second", some 2)], [],
         [{ label := "defer-label", path := []
            data := [("first", some 1)], errors := [] }])
    ∧ ((executeMutation 6 mutationDeferDoc).2.1).all
        (fun kv => kv.1 != "first") = true
    ∧ (executeMutation 6 mutationDeferDoc).2.2.2 ≠ [] := by
  refine ⟨rfl, by decide, by decide⟩

/-- C5 (amended): defer directives on top-level mutation selections are
honored, not ignored: each deferred fragment is removed from the serial
pass (the serial data holds exactly the plain fields' keys, in declaration
order) and registers exactly one dispatcher patch carrying its label, in
declaration order; only the plain fields execute in the serial pass. -/
theorem claim_C5_topLevel_defer_honored (c : Int) (sels : List MutSelection) :
    ((executeMutation c sels).2.1).map Prod.fst
      = sels.filterMap (fun sel => match sel with
          | .field f => some f.key
          | .deferredFragment _ _ => none)
    ∧ ((executeMutation c sels).2.2.2).map MutPatch.label
      = sels.filterMap (fun sel => match sel with
          | .field _ => none
          | .deferredFragment lbl _ => some lbl) := by
  have hkeys : ∀ (c : Int) (sels : List MutSelection),
      ((serialPass c sels).2.1).map Prod.fst
        = sels.filterMap (fun sel => match sel with
            | .field f => some f.key
            | .deferredFragment _ _ => none) := by
    intro c sels
    induction sels generalizing c with
    | nil => rfl
    | cons sel rest ih =>
      cases sel with
      | field f => simp [serialPass, ih]
      | deferredFragment lbl dsels => simp [serialPass, ih]
  have hdefs : ∀ (c : Int) (sels : List MutSelection),
      ((serialPass c sels).2.2.2).map Prod.fst
        = sels.filterMap (fun sel => match sel with
            | .field _ => none
            | .deferredFragment lbl _ => some lbl) := by
    intro c sels
    induction sels generalizing c with
    | nil => rfl
    | cons sel rest ih =>
      cases sel with
      | field f => simp [serialPass, ih]
      | deferredFragment lbl dsels => simp [serialPass, ih]
  have hrun : ∀ (c : Int) (defs : List (String × List MutField)),
      ((runDeferred c defs).2).map MutPatch.label = defs.map Prod.fst := by
    intro c defs
    induction defs generalizing c with
    | nil => rfl
    | cons d rest ih =>
      cases d with
      | mk lbl dsels => simp [runDeferred, ih]
  exact ⟨hkeys c sels, by rw [executeMutation]; simp only [hrun, hdefs]⟩

end MutationExec

end GraphQLJs
